import Mathlib

/-!
Verification of the PDF batch-renaming core of `src/src/App.tsx`
(repository NicoBuff/xempus-umbenennung).

The embedding models strings as Lean `String` (a list of characters,
matching the UTF-16 code-unit view of the JavaScript source for all
characters involved), file payloads as `List Nat` of opaque bytes, and
the JSZip decode capability as an injected function
`List Nat → Option (List ZipEntry)` (decode failure, i.e. the exception
thrown by `loadAsync`, is `none`).
-/

namespace Xempus

/-- Case-insensitive test that a filename ends with the given lower-case
ASCII suffix, mirroring `name.toLowerCase().endsWith(suffix)` in the
source.  Only the final characters matter, and no character outside
ASCII letters lower-cases onto the ASCII letters of the suffixes used
(".pdf", ".zip"), so ASCII case folding is a faithful model here. -/
def lowerEndsWith (suffix : List Char) (s : String) : Bool :=
  suffix.isSuffixOf (s.data.map Char.toLower)

/-- The four characters of the lower-case ".pdf" extension. -/
def pdfExt : List Char := ['.', 'p', 'd', 'f']

/-- The four characters of the lower-case ".zip" extension. -/
def zipExt : List Char := ['.', 'z', 'i', 'p']

/-- Embedding of `fileName.replace(/\.pdf$/i, '')` (App.tsx line 22):
drop a single trailing case-insensitive ".pdf" when present, otherwise
keep the name unchanged. -/
def stripPdfExt (s : String) : String :=
  if lowerEndsWith pdfExt s then ⟨s.data.take (s.data.length - 4)⟩ else s

/-- Embedding of `file.name.replace(/\.zip$/i, '')` (App.tsx line 79). -/
def stripZipExt (s : String) : String :=
  if lowerEndsWith zipExt s then ⟨s.data.take (s.data.length - 4)⟩ else s

/-- Embedding of the JavaScript `split` on the separator character.
`nameWithoutExt.split('_')` always yields at least one (possibly empty)
segment, and n separators yield n+1 segments. -/
def splitUnderscore : List Char → List (List Char)
  | [] => [[]]
  | c :: cs =>
    let rest := splitUnderscore cs
    if c = '_' then [] :: rest
    else
      match rest with
      | [] => [[c]]
      | r :: rs => (c :: r) :: rs

/-- The rejection message for fewer than four underscores
(App.tsx line 28). -/
def errTooFew : String := "Dateiname hat weniger als 4 Unterstriche \"_\""

/-- The rejection message for an empty remainder after the fourth
underscore (App.tsx line 35). -/
def errEmptyTail : String := "Kein gültiger Dateiname nach dem 4. Unterstrich gefunden"

/-- The rejection message for a remainder that neither starts with
digits-then-paren nor with a letter (App.tsx line 43). -/
def errBadFormat : String := "Dateiname entspricht nicht dem erwarteten Format (muss mit Zahl) oder Buchstabe beginnen)"

/-- Embedding of the anchored regex test `/^\d+\)/.test(s)`
(App.tsx line 39): one or more ASCII digits immediately followed by a
closing parenthesis. -/
def startsWithDigitsParen (l : List Char) : Bool :=
  let ds := l.takeWhile fun c => c.isDigit
  !ds.isEmpty && decide ((l.drop ds.length).head? = some ')')

/-- Embedding of the character class `[a-zA-ZäöüÄÖÜß]` of the regex at
App.tsx line 40. -/
def isWordStart (c : Char) : Bool :=
  decide ('a' ≤ c ∧ c ≤ 'z') || decide ('A' ≤ c ∧ c ≤ 'Z') ||
    decide (c = 'ä') || decide (c = 'ö') || decide (c = 'ü') ||
    decide (c = 'Ä') || decide (c = 'Ö') || decide (c = 'Ü') || decide (c = 'ß')

/-- The result of the Name Normalizer: the proposed new name together
with an optional rejection message, exactly the shape returned by
`processFileName` in the source. -/
structure NormResult where
  newName : String
  error : Option String
deriving DecidableEq

/-- Embedding of `processFileName` (App.tsx lines 20 to 47), the pure
Name Normalizer. -/
def processFileName (fileName : String) : NormResult :=
  let nameWithoutExt := stripPdfExt fileName
  let parts := splitUnderscore nameWithoutExt.data
  if parts.length < 5 then
    { newName := fileName, error := some errTooFew }
  else
    let actualFileName := List.intercalate ['_'] (parts.drop 4)
    if actualFileName.isEmpty then
      { newName := fileName, error := some errEmptyTail }
    else
      let startsWithNumber := startsWithDigitsParen actualFileName
      let startsWithWord :=
        match actualFileName with
        | [] => false
        | c :: _ => isWordStart c
      if !startsWithNumber && !startsWithWord then
        { newName := fileName, error := some errBadFormat }
      else
        { newName := ⟨actualFileName ++ pdfExt⟩, error := none }

/-- Outcome tag of a ProcessingItem, the `status` field of the source
`ProcessedFile` record. -/
inductive Status where
  | processed
  | error
deriving DecidableEq

/-- A named binary input as delivered by the presentation layer: a
filename, a declared media type, and opaque bytes. -/
structure InputFile where
  name : String
  type : String
  bytes : List Nat
deriving DecidableEq

/-- One entry of a decoded zip archive: its name, whether it is a
directory, and its bytes. -/
structure ZipEntry where
  name : String
  dir : Bool
  bytes : List Nat
deriving DecidableEq

/-- Embedding of the source `ProcessedFile` record: one ProcessingItem
of the batch. -/
structure ProcessedFile where
  originalName : String
  newName : String
  status : Status
  errorMessage : Option String
  bytes : List Nat
deriving DecidableEq

/-- The mutable application state the pipeline operates on: the batch
(`files`) and the recorded source-archive base name
(`uploadedZipName`, the empty string when none was recorded). -/
structure AppState where
  files : List ProcessedFile
  uploadedZipName : String
deriving DecidableEq

/-- The injected JSZip decode capability: `none` models a decode
failure (the exception thrown by `loadAsync`). -/
abbrev Decode := List Nat → Option (List ZipEntry)

/-- Embedding of `extractPDFsFromZip` (App.tsx lines 49 to 68): on
successful decode, the entries that are not directories and whose name
ends case-insensitively in ".pdf" become input files of declared type
"application/pdf", in archive order; a decode failure propagates as
`none`. -/
def extractPDFsFromZip (decode : Decode) (zipBytes : List Nat) : Option (List InputFile) :=
  (decode zipBytes).map fun entries =>
    (entries.filter fun e => !e.dir && lowerEndsWith pdfExt e.name).map
      fun e => { name := e.name, type := "application/pdf", bytes := e.bytes }

/-- The error message pushed when the archive cannot be decoded
(App.tsx line 114). -/
def errZipUnreadable : String := "ZIP-Datei konnte nicht verarbeitet werden"

/-- The error message pushed when the archive holds no PDF entries
(App.tsx line 91). -/
def errNoPdfs : String := "Keine PDF-Dateien in der ZIP-Datei gefunden"

/-- The ProcessingItem built by running the Name Normalizer on one
input (App.tsx lines 97 to 106 and 119 to 126). -/
def processedOf (f : InputFile) : ProcessedFile :=
  let result := processFileName f.name
  { originalName := f.name
    newName := result.newName
    status := if result.error.isSome then Status.error else Status.processed
    errorMessage := result.error
    bytes := f.bytes }

/-- The single Rejected item representing a whole archive input
(App.tsx lines 86 to 92 and 109 to 115). -/
def zipErrorItem (f : InputFile) (msg : String) : ProcessedFile :=
  { originalName := f.name
    newName := f.name
    status := Status.error
    errorMessage := some msg
    bytes := f.bytes }

/-- One iteration of the `for` loop of `handleFiles` (App.tsx lines 76
to 128).  The accumulator carries the `processedFiles` list built so
far together with the current `uploadedZipName` state; the branches are
the if/else-if chain of the source, in source order. -/
def handleFilesStep (decode : Decode) (acc : List ProcessedFile × String) (file : InputFile) :
    List ProcessedFile × String :=
  if lowerEndsWith zipExt file.name then
    let zipName := stripZipExt file.name
    match extractPDFsFromZip decode file.bytes with
    | none => (acc.1 ++ [zipErrorItem file errZipUnreadable], zipName)
    | some pdfFiles =>
      if pdfFiles.length = 0 then
        (acc.1 ++ [zipErrorItem file errNoPdfs], zipName)
      else
        (acc.1 ++ pdfFiles.map processedOf, zipName)
  else if decide (file.type = "application/pdf") || lowerEndsWith pdfExt file.name then
    (acc.1 ++ [processedOf file], acc.2)
  else
    acc

/-- Embedding of `handleFiles` (App.tsx lines 70 to 136): process the
submitted inputs in order and append every produced item to the
existing batch, updating the recorded archive base name. -/
def handleFiles (decode : Decode) (st : AppState) (fileList : List InputFile) : AppState :=
  let r := fileList.foldl (handleFilesStep decode) ([], st.uploadedZipName)
  { files := st.files ++ r.1, uploadedZipName := r.2 }

/-- The three-way classification performed by the if/else-if chain at
App.tsx lines 77 and 117: archive by ".zip" suffix first, then loose
PDF by declared media type or ".pdf" suffix, else silently ignored. -/
inductive InputKind where
  | archive
  | loosePdf
  | ignored
deriving DecidableEq

/-- The classification of one input, read off the source branch
conditions. -/
def classify (f : InputFile) : InputKind :=
  if lowerEndsWith zipExt f.name then InputKind.archive
  else if decide (f.type = "application/pdf") || lowerEndsWith pdfExt f.name then InputKind.loosePdf
  else InputKind.ignored

/-- The items contributed by one archive input: a single Rejected item
on decode failure, a single Rejected item when no PDF entry matches,
otherwise one normalized item per extracted entry in archive order. -/
def archiveItemsOf (decode : Decode) (f : InputFile) : List ProcessedFile :=
  match extractPDFsFromZip decode f.bytes with
  | none => [zipErrorItem f errZipUnreadable]
  | some pdfFiles =>
    if pdfFiles.length = 0 then [zipErrorItem f errNoPdfs]
    else pdfFiles.map processedOf

/-- The items a single input contributes to the batch, by its
classification. -/
def itemsOf (decode : Decode) (f : InputFile) : List ProcessedFile :=
  match classify f with
  | InputKind.archive => archiveItemsOf decode f
  | InputKind.loosePdf => [processedOf f]
  | InputKind.ignored => []

/-- How one input updates the recorded archive base name: an archive
overwrites it with its own base name, anything else leaves it. -/
def nextZipName (f : InputFile) (z : String) : String :=
  if lowerEndsWith zipExt f.name then stripZipExt f.name else z

/-- The successful items of the batch, in batch order
(App.tsx line 175). -/
def successfulOf (st : AppState) : List ProcessedFile :=
  st.files.filter fun f => decide (f.status = Status.processed)

/-- Embedding of JSZip `zip.file(name, data)` on the growing output
archive: an existing entry of the same name is replaced in place,
otherwise the entry is appended. -/
def zipFileAdd (entries : List (String × List Nat)) (name : String) (bytes : List Nat) :
    List (String × List Nat) :=
  if entries.any fun e => decide (e.1 = name) then
    entries.map fun e => if e.1 = name then (name, bytes) else e
  else entries ++ [(name, bytes)]

/-- The output archive assembled by the loop at App.tsx lines 184 to
187: every selected item written under its new name, in batch order,
later entries overwriting earlier ones of the same name. -/
def buildZip (items : List ProcessedFile) : List (String × List Nat) :=
  items.foldl (fun z f => zipFileAdd z f.newName f.bytes) []

/-- Embedding of `downloadAllAsZip` (App.tsx lines 174 to 214): `none`
when there is no successful item (the early return), otherwise the
suggested archive filename together with the assembled entries. -/
def downloadAllAsZip (st : AppState) : Option (String × List (String × List Nat)) :=
  let successfulFiles := successfulOf st
  if successfulFiles.length = 0 then none
  else
    let zipFileName :=
      if st.uploadedZipName ≠ "" then st.uploadedZipName ++ ".zip" else "bAV-Angebot.zip"
    some (zipFileName, buildZip successfulFiles)

/-- Embedding of `removeFile` (App.tsx lines 216 to 218): drop the item
at the given index. -/
def removeFile (st : AppState) (index : Nat) : AppState :=
  { st with files := st.files.eraseIdx index }

/-- Embedding of `clearAll` (App.tsx lines 220 to 223): reset the batch
and the recorded archive base name. -/
def clearAll (_st : AppState) : AppState :=
  { files := [], uploadedZipName := "" }

/-- The states reachable from the initial empty batch through the
operations of the app. -/
inductive Reachable : AppState → Prop where
  | init : Reachable { files := [], uploadedZipName := "" }
  | submit (decode : Decode) (ins : List InputFile) {st : AppState} :
      Reachable st → Reachable (handleFiles decode st ins)
  | remove (index : Nat) {st : AppState} :
      Reachable st → Reachable (removeFile st index)
  | clear {st : AppState} : Reachable st → Reachable (clearAll st)

/-- The bytes of the last item of the list carrying the given new name,
the content the output archive ends up holding under that name. -/
def lastBytesFor (items : List ProcessedFile) (n : String) : Option (List Nat) :=
  ((items.filter fun f => decide (f.newName = n)).getLast?).map ProcessedFile.bytes

/-! ## Structural lemmas about the pipeline -/

theorem handleFilesStep_eq (decode : Decode) (acc : List ProcessedFile × String)
    (f : InputFile) :
    handleFilesStep decode acc f = (acc.1 ++ itemsOf decode f, nextZipName f acc.2) := by
  unfold handleFilesStep itemsOf classify archiveItemsOf nextZipName
  by_cases hz : lowerEndsWith zipExt f.name = true
  · simp only [hz, if_true]
    cases h : extractPDFsFromZip decode f.bytes with
    | none => simp
    | some ps => by_cases hp : ps.length = 0 <;> simp [hp]
  · simp only [Bool.not_eq_true] at hz
    simp only [hz, Bool.false_eq_true, if_false]
    by_cases ht : (decide (f.type = "application/pdf") || lowerEndsWith pdfExt f.name) = true
    · simp [ht]
    · simp only [Bool.not_eq_true] at ht
      simp [ht]

theorem foldl_handleFilesStep (decode : Decode) (ins : List InputFile)
    (acc : List ProcessedFile × String) :
    ins.foldl (handleFilesStep decode) acc =
      (acc.1 ++ (ins.map (itemsOf decode)).flatten,
        ins.foldl (fun z f => nextZipName f z) acc.2) := by
  induction ins generalizing acc with
  | nil => simp
  | cons f ins ih =>
    simp only [List.foldl_cons, List.map_cons, List.flatten_cons]
    rw [handleFilesStep_eq, ih]
    simp [List.append_assoc]

theorem handleFiles_files (decode : Decode) (st : AppState) (ins : List InputFile) :
    (handleFiles decode st ins).files = st.files ++ (ins.map (itemsOf decode)).flatten := by
  simp [handleFiles, foldl_handleFilesStep]

theorem handleFiles_zipName (decode : Decode) (st : AppState) (ins : List InputFile) :
    (handleFiles decode st ins).uploadedZipName =
      ins.foldl (fun z f => nextZipName f z) st.uploadedZipName := by
  simp [handleFiles, foldl_handleFilesStep]

/-! ## Lemmas about the Name Normalizer -/

theorem splitUnderscore_ne_nil (l : List Char) : splitUnderscore l ≠ [] := by
  cases l with
  | nil => simp [splitUnderscore]
  | cons c cs =>
    unfold splitUnderscore
    by_cases h : c = '_'
    · simp [h]
    · simp only [h, if_false]
      cases splitUnderscore cs <;> simp

theorem splitUnderscore_length (l : List Char) :
    (splitUnderscore l).length = l.count '_' + 1 := by
  induction l with
  | nil => simp [splitUnderscore]
  | cons c cs ih =>
    unfold splitUnderscore
    by_cases h : c = '_'
    · simp [h, List.count_cons, ih]
    · simp only [h, if_false]
      cases hs : splitUnderscore cs with
      | nil => exact absurd hs (splitUnderscore_ne_nil cs)
      | cons r rs =>
        rw [hs] at ih
        simp only [List.length_cons] at ih ⊢
        simp [List.count_cons, h, ih]

theorem processFileName_cases (s : String) :
    processFileName s = { newName := s, error := some errTooFew } ∨
    processFileName s = { newName := s, error := some errEmptyTail } ∨
    processFileName s = { newName := s, error := some errBadFormat } ∨
    processFileName s =
      { newName :=
          ⟨List.intercalate ['_'] ((splitUnderscore (stripPdfExt s).data).drop 4) ++ pdfExt⟩,
        error := none } := by
  unfold processFileName
  dsimp only
  split_ifs <;> simp

/-! ## Claim theorems about the Name Normalizer -/

/-- Claim C2: whenever the underscore-split of the extension-stripped
name has fewer than 5 segments (equivalently, the name has fewer than 4
underscores, since n separators always give n+1 segments), the
Normalizer rejects with the too-few-separators reason and returns the
original filename unchanged. -/
theorem c2_too_few_separators :
    (∀ s : String, (splitUnderscore (stripPdfExt s).data).length < 5 →
      processFileName s = { newName := s, error := some errTooFew }) ∧
    (∀ l : List Char, (splitUnderscore l).length = l.count '_' + 1) := by
  constructor
  · intro s h
    unfold processFileName
    dsimp only
    rw [if_pos h]
  · exact splitUnderscore_length

/-- Witness for C2 at the concrete input "a.pdf". -/
theorem c2_witness :
    (splitUnderscore (stripPdfExt "a.pdf").data).length < 5 ∧
    processFileName "a.pdf" = { newName := "a.pdf", error := some errTooFew } :=
  ⟨by decide, c2_too_few_separators.1 "a.pdf" (by decide)⟩

/-- Claim C3: every accepted filename is mapped to the underscore-join
of the segments from index 4 onward of the extension-stripped name,
with the literal lower-case ".pdf" appended; in particular the input
"A_B_C_D_Bürobedarf.PDF" maps to "Bürobedarf.pdf". -/
theorem c3_accepted_name :
    (∀ s : String, (processFileName s).error = none →
      (processFileName s).newName =
        ⟨List.intercalate ['_'] ((splitUnderscore (stripPdfExt s).data).drop 4) ++ pdfExt⟩) ∧
    processFileName "A_B_C_D_Bürobedarf.PDF" =
      { newName := "Bürobedarf.pdf", error := none } := by
  constructor
  · intro s h
    rcases processFileName_cases s with hc | hc | hc | hc <;> rw [hc] at h ⊢ <;> simp_all
  · decide

/-- Witness for C3 at the concrete accepted input "A_B_C_D_x.pdf". -/
theorem c3_witness :
    (processFileName "A_B_C_D_x.pdf").error = none ∧
    (processFileName "A_B_C_D_x.pdf").newName =
      ⟨List.intercalate ['_']
        ((splitUnderscore (stripPdfExt "A_B_C_D_x.pdf").data).drop 4) ++ pdfExt⟩ :=
  ⟨by decide, c3_accepted_name.1 "A_B_C_D_x.pdf" (by decide)⟩

/-- Claim C4: the Normalizer is a total function (it is a Lean `def`,
so it returns a value on every input string and can never throw), and
every rejection carries one of the three rejection reasons and returns
the original filename unchanged as the new name. -/
theorem c4_total_and_fallback (s : String) :
    (processFileName s).error = none ∨
      ((processFileName s).error ∈ [some errTooFew, some errEmptyTail, some errBadFormat] ∧
        (processFileName s).newName = s) := by
  rcases processFileName_cases s with hc | hc | hc | hc <;> rw [hc] <;> simp

/-! ## Claim theorems about submission ordering and error isolation -/

/-- Claim C7: a submission only appends to the existing batch, and the
appended sequence is the concatenation, in input order, of the item
blocks contributed by each input, so all items of input i precede all
items of input i+1 and existing items are never reordered or removed. -/
theorem c7_submission_appends_in_order (decode : Decode) (st : AppState)
    (ins : List InputFile) :
    (handleFiles decode st ins).files = st.files ++ (ins.map (itemsOf decode)).flatten :=
  handleFiles_files decode st ins

/-- Claim C5: an archive input whose bytes fail to decode contributes
exactly the single Rejected archive-unreadable item and nothing for its
contents; an archive that decodes but has no matching PDF entry
contributes exactly the single Rejected no-PDF-entries item; and in any
submission the items of the surrounding inputs are still produced
unchanged around the failing archive. -/
theorem c5_archive_error_isolation :
    (∀ (decode : Decode) (f : InputFile), lowerEndsWith zipExt f.name = true →
      decode f.bytes = none →
      itemsOf decode f = [zipErrorItem f errZipUnreadable] ∧
        (zipErrorItem f errZipUnreadable).status = Status.error) ∧
    (∀ (decode : Decode) (f : InputFile) (es : List ZipEntry),
      lowerEndsWith zipExt f.name = true → decode f.bytes = some es →
      (es.filter fun e => !e.dir && lowerEndsWith pdfExt e.name) = [] →
      itemsOf decode f = [zipErrorItem f errNoPdfs] ∧
        (zipErrorItem f errNoPdfs).status = Status.error) ∧
    (∀ (decode : Decode) (st : AppState) (xs : List InputFile) (f : InputFile)
        (ys : List InputFile),
      (handleFiles decode st (xs ++ f :: ys)).files =
        st.files ++ (xs.map (itemsOf decode)).flatten ++ itemsOf decode f ++
          (ys.map (itemsOf decode)).flatten) := by
  refine ⟨?_, ?_, ?_⟩
  · intro d f hz hd
    constructor
    · simp [itemsOf, classify, hz, archiveItemsOf, extractPDFsFromZip, hd]
    · rfl
  · intro d f es hz hd hf
    constructor
    · simp [itemsOf, classify, hz, archiveItemsOf, extractPDFsFromZip, hd, hf]
    · rfl
  · intro d st xs f ys
    rw [handleFiles_files]
    simp [List.append_assoc]

/-- Witness for C5: a decode failure on "a.zip" and a PDF-free archive
"b.zip", each contributing its single Rejected item. -/
theorem c5_witness :
    (itemsOf (fun _ => none) { name := "a.zip", type := "", bytes := [] } =
        [zipErrorItem { name := "a.zip", type := "", bytes := [] } errZipUnreadable] ∧
      (zipErrorItem { name := "a.zip", type := "", bytes := [] } errZipUnreadable).status =
        Status.error) ∧
    (itemsOf (fun _ => some [{ name := "readme.txt", dir := false, bytes := [] }])
        { name := "b.zip", type := "", bytes := [] } =
        [zipErrorItem { name := "b.zip", type := "", bytes := [] } errNoPdfs] ∧
      (zipErrorItem { name := "b.zip", type := "", bytes := [] } errNoPdfs).status =
        Status.error) :=
  ⟨c5_archive_error_isolation.1 _ _ (by decide) rfl,
    c5_archive_error_isolation.2.1 _ _ _ (by decide) rfl (by decide)⟩

/-- Claim C9: an input whose name ends case-insensitively in ".zip" is
always classified as an archive, never as a loose PDF, even when its
declared media type is "application/pdf"; the loose-PDF branch is
reached only for inputs without the ".zip" suffix.  The third part
shows the loop body taking the archive branch on such an input. -/
theorem c9_zip_suffix_wins :
    (∀ f : InputFile, lowerEndsWith zipExt f.name = true → classify f = InputKind.archive) ∧
    (∀ f : InputFile, classify f = InputKind.loosePdf → lowerEndsWith zipExt f.name = false) ∧
    (∀ (decode : Decode) (acc : List ProcessedFile × String) (f : InputFile),
      lowerEndsWith zipExt f.name = true → f.type = "application/pdf" →
      handleFilesStep decode acc f = (acc.1 ++ archiveItemsOf decode f, stripZipExt f.name)) := by
  refine ⟨?_, ?_, ?_⟩
  · intro f hz
    simp [classify, hz]
  · intro f h
    cases hb : lowerEndsWith zipExt f.name with
    | false => rfl
    | true => simp [classify, hb] at h
  · intro d acc f hz _
    rw [handleFilesStep_eq]
    simp [itemsOf, classify, hz, nextZipName]

/-- Witness for C9 at the concrete input named "a.zip" with declared
media type "application/pdf". -/
theorem c9_witness :
    classify { name := "a.zip", type := "application/pdf", bytes := [] } = InputKind.archive ∧
    handleFilesStep (fun _ => none) ([], "")
        { name := "a.zip", type := "application/pdf", bytes := [] } =
      ([] ++ archiveItemsOf (fun _ => none)
          { name := "a.zip", type := "application/pdf", bytes := [] },
        stripZipExt "a.zip") :=
  ⟨c9_zip_suffix_wins.1 _ (by decide), c9_zip_suffix_wins.2.2 _ _ _ (by decide) rfl⟩

/-- Claim C10: processing an archive input records its base name in the
state no matter what the decode capability does (so an unreadable or
PDF-free archive still sets or overwrites it), and a nonempty recorded
base name is what names the packaged output archive. -/
theorem c10_basename_recorded_regardless :
    (∀ (decode : Decode) (st : AppState) (f : InputFile),
      lowerEndsWith zipExt f.name = true →
      (handleFiles decode st [f]).uploadedZipName = stripZipExt f.name) ∧
    (∀ st : AppState, st.uploadedZipName ≠ "" → successfulOf st ≠ [] →
      downloadAllAsZip st =
        some (st.uploadedZipName ++ ".zip", buildZip (successfulOf st))) := by
  constructor
  · intro d st f hz
    rw [handleFiles_zipName]
    simp [nextZipName, hz]
  · intro st hn hs
    have h0 : ¬ (successfulOf st).length = 0 := fun h => hs (List.length_eq_zero.mp h)
    simp [downloadAllAsZip, hn, h0]

/-- A concrete one-item batch with a recorded archive base name, used
by witnesses below. -/
def sampleState : AppState :=
  { files := [{ originalName := "o", newName := "x.pdf", status := Status.processed, errorMessage := none, bytes := [1] }], uploadedZipName := "kunde" }

/-- Witness for C10: an unreadable archive "kunde.zip" still records
the base name "kunde", and a batch with that name recorded packages to
"kunde.zip". -/
theorem c10_witness :
    (handleFiles (fun _ => none) { files := [], uploadedZipName := "" }
        [{ name := "kunde.zip", type := "", bytes := [] }]).uploadedZipName =
      stripZipExt "kunde.zip" ∧
    downloadAllAsZip sampleState =
      some (sampleState.uploadedZipName ++ ".zip", buildZip (successfulOf sampleState)) :=
  ⟨c10_basename_recorded_regardless.1 _ _ _ (by decide),
    c10_basename_recorded_regardless.2 sampleState (by decide) (by decide)⟩

/-! ## Claim C1: which archive determines the recorded base name -/

/-- Counterexample to claim C1 as stated: submitting two archives in
one call leaves the batch with the base name of the second (last)
archive, not the first one, so the first archive does not win and later
archives do override. -/
theorem c1_counterexample :
    (handleFiles (fun _ => none) { files := [], uploadedZipName := "" }
        [{ name := "first.zip", type := "", bytes := [] },
         { name := "second.zip", type := "", bytes := [] }]).uploadedZipName = "second" ∧
    stripZipExt "first.zip" = "first" ∧ ("second" : String) ≠ "first" := by
  refine ⟨by decide, by decide, by decide⟩

/-- Claim C1 as amended: the recorded base name is that of the LAST
archive encountered (every archive input overwrites it,
unconditionally), and a submission containing no archive leaves it
unchanged. -/
theorem c1_amended_last_archive_wins :
    (∀ (decode : Decode) (st : AppState) (ins : List InputFile) (f : InputFile),
      lowerEndsWith zipExt f.name = true →
      (handleFiles decode st (ins ++ [f])).uploadedZipName = stripZipExt f.name) ∧
    (∀ (decode : Decode) (st : AppState) (ins : List InputFile),
      (∀ f ∈ ins, lowerEndsWith zipExt f.name = false) →
      (handleFiles decode st ins).uploadedZipName = st.uploadedZipName) := by
  have hfold : ∀ (l : List InputFile) (z : String),
      (∀ f ∈ l, lowerEndsWith zipExt f.name = false) →
      l.foldl (fun z f => nextZipName f z) z = z := by
    intro l
    induction l with
    | nil => intro z _; rfl
    | cons f l ih =>
      intro z hl
      simp only [List.foldl_cons]
      rw [show nextZipName f z = z from by simp [nextZipName, hl f (by simp)]]
      exact ih z fun g hg => hl g (by simp [hg])
  constructor
  · intro d st ins f hz
    rw [handleFiles_zipName, List.foldl_append]
    simp [nextZipName, hz]
  · intro d st ins h
    rw [handleFiles_zipName]
    exact hfold ins st.uploadedZipName h

/-- Witness for the amended C1: the last of two archives wins, and a
PDF-only submission does not touch the recorded name. -/
theorem c1_witness :
    (handleFiles (fun _ => none) { files := [], uploadedZipName := "" }
        ([{ name := "first.zip", type := "", bytes := [] }] ++
          [{ name := "second.zip", type := "", bytes := [] }])).uploadedZipName =
      stripZipExt "second.zip" ∧
    (handleFiles (fun _ => none) { files := [], uploadedZipName := "kunde" }
        [{ name := "A_B_C_D_x.pdf", type := "application/pdf", bytes := [] }]).uploadedZipName =
      "kunde" :=
  ⟨c1_amended_last_archive_wins.1 _ _ _ _ (by decide),
    c1_amended_last_archive_wins.2 _ _ _ (by decide)⟩

/-! ## Lemmas about the assembled output archive -/

theorem buildZip_concat (items : List ProcessedFile) (f : ProcessedFile) :
    buildZip (items ++ [f]) = zipFileAdd (buildZip items) f.newName f.bytes := by
  unfold buildZip
  rw [List.foldl_append]
  rfl

theorem mem_zipFileAdd_self (m : List (String × List Nat)) (n : String) (b0 b : List Nat) :
    (n, b) ∈ zipFileAdd m n b0 ↔ b = b0 := by
  unfold zipFileAdd
  by_cases h : (m.any fun e => decide (e.1 = n)) = true
  · rw [if_pos h]
    simp only [List.mem_map]
    constructor
    · rintro ⟨e, he, heq⟩
      by_cases h1 : e.1 = n
      · rw [if_pos h1] at heq
        exact ((Prod.mk.injEq _ _ _ _).mp heq).2.symm
      · rw [if_neg h1] at heq
        exact absurd (congrArg Prod.fst heq) h1
    · intro hb
      subst hb
      rcases List.any_eq_true.mp h with ⟨e, he, hd⟩
      exact ⟨e, he, by rw [if_pos (of_decide_eq_true hd)]⟩
  · rw [if_neg h]
    simp only [List.mem_append, List.mem_singleton]
    constructor
    · rintro (hm | heq)
      · exact absurd (List.any_eq_true.mpr ⟨(n, b), hm, by simp⟩) h
      · exact ((Prod.mk.injEq _ _ _ _).mp heq).2
    · intro hb
      subst hb
      exact Or.inr rfl

theorem mem_zipFileAdd_ne (m : List (String × List Nat)) (n0 : String) (b0 : List Nat)
    (n : String) (b : List Nat) (hne : n ≠ n0) :
    ((n, b) ∈ zipFileAdd m n0 b0) ↔ (n, b) ∈ m := by
  unfold zipFileAdd
  by_cases h : (m.any fun e => decide (e.1 = n0)) = true
  · rw [if_pos h]
    simp only [List.mem_map]
    constructor
    · rintro ⟨e, he, heq⟩
      by_cases h1 : e.1 = n0
      · rw [if_pos h1] at heq
        exact absurd ((Prod.mk.injEq _ _ _ _).mp heq).1.symm hne
      · rw [if_neg h1] at heq
        rwa [heq] at he
    · intro hm
      refine ⟨(n, b), hm, ?_⟩
      rw [if_neg (by simpa using hne)]
  · rw [if_neg h]
    simp only [List.mem_append, List.mem_singleton]
    constructor
    · rintro (hm | heq)
      · exact hm
      · exact absurd ((Prod.mk.injEq _ _ _ _).mp heq).1 hne
    · exact Or.inl

theorem mem_buildZip_iff (items : List ProcessedFile) (n : String) (b : List Nat) :
    (n, b) ∈ buildZip items ↔ lastBytesFor items n = some b := by
  induction items using List.reverseRecOn with
  | nil => simp [buildZip, lastBytesFor]
  | append_singleton l f ih =>
    rw [buildZip_concat]
    by_cases hn : f.newName = n
    · rw [hn, mem_zipFileAdd_self]
      unfold lastBytesFor
      rw [List.filter_append]
      have hsingle : List.filter (fun g => decide (g.newName = n)) [f] = [f] := by simp [hn]
      rw [hsingle, List.getLast?_concat]
      simp only [Option.map_some', Option.some.injEq]
      exact eq_comm
    · rw [mem_zipFileAdd_ne _ _ _ _ _ fun hh => hn hh.symm, ih]
      unfold lastBytesFor
      rw [List.filter_append]
      simp [hn]

theorem mem_keys_buildZip (items : List ProcessedFile) (n : String) (b : List Nat)
    (h : (n, b) ∈ buildZip items) : ∃ f ∈ items, f.newName = n := by
  rw [mem_buildZip_iff] at h
  unfold lastBytesFor at h
  rcases Option.map_eq_some'.mp h with ⟨x, hx, _⟩
  have hxm : x ∈ items.filter fun f => decide (f.newName = n) :=
    List.mem_of_mem_getLast? hx
  rcases List.mem_filter.mp hxm with ⟨hxi, hxd⟩
  exact ⟨x, hxi, of_decide_eq_true hxd⟩

theorem exists_entry_of_mem (items : List ProcessedFile) (f : ProcessedFile)
    (hf : f ∈ items) : ∃ b, (f.newName, b) ∈ buildZip items := by
  have hmem : f ∈ items.filter fun g => decide (g.newName = f.newName) :=
    List.mem_filter.mpr ⟨hf, by simp⟩
  have hne : (items.filter fun g => decide (g.newName = f.newName)) ≠ [] := by
    intro h
    rw [h] at hmem
    exact absurd hmem (List.not_mem_nil f)
  rcases Option.ne_none_iff_exists'.mp
      (fun h => hne (List.getLast?_eq_none_iff.mp h)) with ⟨x, hx⟩
  refine ⟨x.bytes, (mem_buildZip_iff items f.newName x.bytes).mpr ?_⟩
  unfold lastBytesFor
  rw [hx]
  rfl

theorem keys_buildZip_nodup (items : List ProcessedFile) :
    ((buildZip items).map Prod.fst).Nodup := by
  induction items using List.reverseRecOn with
  | nil => simp [buildZip]
  | append_singleton l f ih =>
    rw [buildZip_concat]
    unfold zipFileAdd
    by_cases h : ((buildZip l).any fun e => decide (e.1 = f.newName)) = true
    · rw [if_pos h, List.map_map]
      have hmaps : ((buildZip l).map
          (Prod.fst ∘ fun e => if e.1 = f.newName then (f.newName, f.bytes) else e)) =
          (buildZip l).map Prod.fst := by
        apply List.map_congr_left
        intro e _
        by_cases h1 : e.1 = f.newName <;> simp [h1]
      rw [hmaps]
      exact ih
    · rw [if_neg h, List.map_append]
      simp only [List.map_cons, List.map_nil]
      rw [List.nodup_append]
      refine ⟨ih, List.nodup_singleton _, ?_⟩
      intro a ha hb
      rcases List.mem_map.mp ha with ⟨e, he, rfl⟩
      have hb1 := List.mem_singleton.mp hb
      exact h (List.any_eq_true.mpr ⟨e, he, by simp [hb1]⟩)

theorem buildZip_of_nodup (items : List ProcessedFile)
    (h : (items.map fun f => f.newName).Nodup) :
    buildZip items = items.map fun f => (f.newName, f.bytes) := by
  induction items using List.reverseRecOn with
  | nil => simp [buildZip]
  | append_singleton l f ih =>
    rw [List.map_append] at h ⊢
    rw [List.nodup_append] at h
    rcases h with ⟨h1, _, hdisj⟩
    have h2 : f.newName ∉ l.map fun f => f.newName := by
      intro hmem
      exact hdisj hmem (by simp)
    rw [buildZip_concat, ih h1]
    unfold zipFileAdd
    rw [if_neg ?hany]
    · simp
    case hany =>
      intro hany
      rcases List.any_eq_true.mp hany with ⟨e, he, hd⟩
      rcases List.mem_map.mp he with ⟨g, hg, rfl⟩
      exact h2 (List.mem_map.mpr ⟨g, hg, of_decide_eq_true hd⟩)

/-! ## Claim C6: packaging the successful items -/

/-- Claim C6: packaging selects exactly the batch items with status
processed, in batch order; it is a no-op producing no archive when
there is none; otherwise the archive is named after the recorded base
name, or the fixed default "bAV-Angebot.zip"; and when the new names
are distinct the entries are exactly the successful items, in batch
order. -/
theorem c6_package_successful :
    (∀ st : AppState, successfulOf st = [] → downloadAllAsZip st = none) ∧
    (∀ st : AppState, successfulOf st ≠ [] →
      downloadAllAsZip st =
        some ((if st.uploadedZipName ≠ "" then st.uploadedZipName ++ ".zip"
            else "bAV-Angebot.zip"),
          buildZip (successfulOf st))) ∧
    (∀ st : AppState, ((successfulOf st).map fun f => f.newName).Nodup →
      buildZip (successfulOf st) = (successfulOf st).map fun f => (f.newName, f.bytes)) := by
  refine ⟨?_, ?_, ?_⟩
  · intro st h
    simp [downloadAllAsZip, h]
  · intro st h
    have h0 : ¬ (successfulOf st).length = 0 := fun hh => h (List.length_eq_zero.mp hh)
    simp [downloadAllAsZip, h0]
  · intro st h
    exact buildZip_of_nodup _ h

/-- Witness for C6: the empty batch packages to nothing, and the sample
batch packages its single successful item under its recorded name. -/
theorem c6_witness :
    downloadAllAsZip { files := [], uploadedZipName := "" } = none ∧
    downloadAllAsZip sampleState =
      some ((if sampleState.uploadedZipName ≠ "" then sampleState.uploadedZipName ++ ".zip"
          else "bAV-Angebot.zip"),
        buildZip (successfulOf sampleState)) ∧
    buildZip (successfulOf sampleState) =
      (successfulOf sampleState).map fun f => (f.newName, f.bytes) :=
  ⟨c6_package_successful.1 _ (by decide),
    c6_package_successful.2.1 sampleState (by decide),
    c6_package_successful.2.2 sampleState (by decide)⟩

/-! ## Claim C8: packaging then re-extracting the output archive -/

theorem processFileName_accept_suffix (s : String)
    (h : (processFileName s).error = none) :
    lowerEndsWith pdfExt (processFileName s).newName = true := by
  rcases processFileName_cases s with hc | hc | hc | hc <;> rw [hc] at h ⊢
  · simp at h
  · simp at h
  · simp at h
  · show pdfExt.isSuffixOf
      ((List.intercalate ['_'] ((splitUnderscore (stripPdfExt s).data).drop 4) ++
        pdfExt).map Char.toLower) = true
    rw [List.map_append]
    have hlow : pdfExt.map Char.toLower = pdfExt := by decide
    rw [hlow]
    exact List.isSuffixOf_iff_suffix.mpr (List.suffix_append _ _)

theorem processedOf_suffix (f : InputFile)
    (h : (processedOf f).status = Status.processed) :
    lowerEndsWith pdfExt (processedOf f).newName = true := by
  unfold processedOf at h ⊢
  dsimp only at h ⊢
  by_cases he : (processFileName f.name).error.isSome
  · rw [if_pos he] at h
    exact absurd h (by decide)
  · have hnone : (processFileName f.name).error = none :=
      Option.not_isSome_iff_eq_none.mp he
    exact processFileName_accept_suffix f.name hnone

theorem mem_itemsOf_processed (decode : Decode) (g : InputFile) (f : ProcessedFile)
    (hf : f ∈ itemsOf decode g) (hs : f.status = Status.processed) :
    lowerEndsWith pdfExt f.newName = true := by
  unfold itemsOf at hf
  split at hf
  · unfold archiveItemsOf at hf
    split at hf
    · have hfe := List.mem_singleton.mp hf
      rw [hfe] at hs
      simp [zipErrorItem] at hs
    · split at hf
      · have hfe := List.mem_singleton.mp hf
        rw [hfe] at hs
        simp [zipErrorItem] at hs
      · rcases List.mem_map.mp hf with ⟨p, _, rfl⟩
        exact processedOf_suffix p hs
  · have hfe := List.mem_singleton.mp hf
    rw [hfe] at hs ⊢
    exact processedOf_suffix g hs
  · exact absurd hf (List.not_mem_nil f)

/-- Invariant of every reachable batch: a ProcessingItem with the
processed (Renamed) outcome carries a new name ending in the
lower-case ".pdf" the Normalizer appended, hence one the archive
re-extraction filter keeps. -/
theorem reachable_processed_suffix (st : AppState) (h : Reachable st) :
    ∀ f ∈ st.files, f.status = Status.processed →
      lowerEndsWith pdfExt f.newName = true := by
  induction h with
  | init =>
    intro f hf
    exact absurd hf (List.not_mem_nil f)
  | submit d ins hst ih =>
    intro f hf hs
    rw [handleFiles_files] at hf
    rcases List.mem_append.mp hf with hold | hnew
    · exact ih f hold hs
    · rcases List.mem_flatten.mp hnew with ⟨l, hl, hfl⟩
      rcases List.mem_map.mp hl with ⟨g, _, rfl⟩
      exact mem_itemsOf_processed d g f hfl hs
  | remove i hst ih =>
    intro f hf hs
    exact ih f (List.eraseIdx_subset _ i hf) hs
  | clear hst ih =>
    intro f hf
    exact absurd hf (List.not_mem_nil f)

/-- Claim C8: for every reachable batch, writing the successful items
into the output archive and re-extracting that archive yields exactly
one entry per distinct new name; each entry carries the new name of a
successful item, every successful item is represented, and each entry
holds byte-identically the original bytes of the (last) item with that
new name. -/
theorem c8_roundtrip (st : AppState) (h : Reachable st) :
    ∃ entries : List InputFile,
      extractPDFsFromZip
          (fun _ => some ((buildZip (successfulOf st)).map fun e => ⟨e.1, false, e.2⟩)) [] =
        some entries ∧
      (entries.map fun e => e.name).Nodup ∧
      (∀ f ∈ successfulOf st, ∃ e ∈ entries, e.name = f.newName) ∧
      (∀ e ∈ entries, (∃ f ∈ successfulOf st, f.newName = e.name) ∧
        lastBytesFor (successfulOf st) e.name = some e.bytes) := by
  have hsuffix : ∀ p ∈ buildZip (successfulOf st), lowerEndsWith pdfExt p.1 = true := by
    intro p hp
    obtain ⟨f, hfm, hfn⟩ := mem_keys_buildZip (successfulOf st) p.1 p.2 hp
    rcases List.mem_filter.mp hfm with ⟨hfi, hfd⟩
    rw [← hfn]
    exact reachable_processed_suffix st h f hfi (of_decide_eq_true hfd)
  refine ⟨(buildZip (successfulOf st)).map fun e => ⟨e.1, "application/pdf", e.2⟩,
    ?_, ?_, ?_, ?_⟩
  · simp only [extractPDFsFromZip, Option.map_some', Option.some.injEq]
    rw [List.filter_eq_self.mpr ?hall]
    · rw [List.map_map]
      rfl
    case hall =>
      intro e he
      rcases List.mem_map.mp he with ⟨p, hp, rfl⟩
      simp [hsuffix p hp]
  · rw [List.map_map]
    exact keys_buildZip_nodup (successfulOf st)
  · intro f hf
    rcases exists_entry_of_mem (successfulOf st) f hf with ⟨b, hb⟩
    exact ⟨⟨f.newName, "application/pdf", b⟩, List.mem_map.mpr ⟨(f.newName, b), hb, rfl⟩, rfl⟩
  · intro e he
    rcases List.mem_map.mp he with ⟨p, hp, rfl⟩
    constructor
    · obtain ⟨f, hfm, hfn⟩ := mem_keys_buildZip (successfulOf st) p.1 p.2 hp
      exact ⟨f, hfm, hfn⟩
    · exact (mem_buildZip_iff _ _ _).mp hp

/-- The one-submission state reached by submitting a single loose PDF,
used by the C8 witness. -/
def c8State : AppState :=
  handleFiles (fun _ => none) { files := [], uploadedZipName := "" }
    [{ name := "A_B_C_D_x.pdf", type := "application/pdf", bytes := [0, 1] }]

/-- Witness for C8 at the concrete reachable one-item batch. -/
theorem c8_witness :
    ∃ entries : List InputFile,
      extractPDFsFromZip
          (fun _ => some ((buildZip (successfulOf c8State)).map fun e => ⟨e.1, false, e.2⟩))
          [] = some entries ∧
      (entries.map fun e => e.name).Nodup ∧
      (∀ f ∈ successfulOf c8State, ∃ e ∈ entries, e.name = f.newName) ∧
      (∀ e ∈ entries, (∃ f ∈ successfulOf c8State, f.newName = e.name) ∧
        lastBytesFor (successfulOf c8State) e.name = some e.bytes) :=
  c8_roundtrip c8State (Reachable.submit _ _ Reachable.init)

end Xempus
